import Mathlib

/-!
Verification of the Catch-A-Frog game engine (`src/game_logic.py`).

The Python class `GameLogic` is embedded as a Lean structure `GameLogic`
together with executable functions mirroring its methods:

* `GameLogic.in_bounds`, `GameLogic.neighbors`, `GameLogic.is_edge`
* `GameLogic.add_obstacle`
* `GameLogic.shortest_path_to_edge` (BFS; the Python `while q` loop becomes
  `bfsLoop` driven by a fuel argument that is always large enough, which is
  proved, and the parent-pointer path reconstruction becomes `reconstruct`)
* `GameLogic.step_after_click`
* `GameLogic.reset` / construction (`GameLogic.init`); the calls to
  `random.randint` / `random.randrange` are modelled by passing the sampled
  target count `n` and the stream of sampled cells explicitly.

Machine integers are `Int` (Python integers are unbounded, so no wraparound
modelling is needed); the Python `set` of obstacle cells is a duplicate-free
`List` (insertion only happens after a membership test, exactly as in the
Python code paths that mutate it).
-/

namespace CatchAFrog

/-- A grid cell `(row, column)`, mirroring the Python `Cell = Tuple[int, int]`. -/
abbrev Cell := Int × Int

/-- The `status` field of the Python class: one of the strings
`"in_progress"`, `"win"`, `"lose"`. -/
inductive Status where
  | in_progress : Status
  | win : Status
  | lose : Status
deriving DecidableEq, Repr

/-- The state owned by the Python `GameLogic` instance. -/
structure GameLogic where
  rows : Int
  cols : Int
  min_obstacles : Int
  max_obstacles : Int
  frog : Cell
  obstacles : List Cell
  status : Status
deriving DecidableEq, Repr

namespace GameLogic

/-- `in_bounds`: `0 <= r < self.rows and 0 <= c < self.cols`. -/
def in_bounds (g : GameLogic) (cell : Cell) : Bool :=
  decide (0 ≤ cell.1) && decide (cell.1 < g.rows) &&
  decide (0 ≤ cell.2) && decide (cell.2 < g.cols)

/-- The parity-dependent offset table used by `neighbors`
(even-row offset hex convention). -/
def hexOffsets (r : Int) : List (Int × Int) :=
  if r % 2 = 0 then
    [(-1, -1), (-1, 0), (0, -1), (0, 1), (1, -1), (1, 0)]
  else
    [(-1, 0), (-1, 1), (0, -1), (0, 1), (1, 0), (1, 1)]

/-- `neighbors`: add each offset to the cell and keep the in-bounds results,
in the offset-table order. -/
def neighbors (g : GameLogic) (cell : Cell) : List Cell :=
  ((hexOffsets cell.1).map (fun d => (cell.1 + d.1, cell.2 + d.2))).filter
    (fun nb => g.in_bounds nb)

/-- `is_edge`: `r == 0 or r == self.rows - 1 or c == 0 or c == self.cols - 1`. -/
def is_edge (g : GameLogic) (cell : Cell) : Bool :=
  decide (cell.1 = 0) || decide (cell.1 = g.rows - 1) ||
  decide (cell.2 = 0) || decide (cell.2 = g.cols - 1)

/-- `add_obstacle`: returns the Python return value paired with the updated
state (state passing replaces mutation of `self.obstacles`). -/
def add_obstacle (g : GameLogic) (r c : Int) : Bool × GameLogic :=
  let cell : Cell := (r, c)
  if ¬ (g.in_bounds cell = true) then (false, g)
  else if cell = g.frog then (false, g)
  else if cell ∈ g.obstacles then (false, g)
  else (true, { g with obstacles := cell :: g.obstacles })

/-- Python `dict` lookup used for the BFS `parent` map. -/
def lookupCell (x : Cell) : List (Cell × Cell) → Option Cell
  | [] => none
  | (a, b) :: rest => if a = x then some b else lookupCell x rest

/-- The path-reconstruction loop of `shortest_path_to_edge`:
`path = [cur]; while path[-1] != start: path.append(parent[path[-1]])`,
followed by `path.reverse()`.  The accumulator holds the Python list in
reversed order (most recently appended cell first), so the final result needs
no extra reversal.  The fuel makes the recursion structural; every call site
supplies enough fuel for the loop to finish (proved below). -/
def reconstruct (parent : List (Cell × Cell)) (start : Cell) :
    Nat → List Cell → List Cell
  | 0, acc => acc
  | _ + 1, [] => []
  | fuel + 1, last :: rest =>
    if last = start then last :: rest
    else
      match lookupCell last parent with
      | some p => reconstruct parent start fuel (p :: last :: rest)
      | none => last :: rest

/-- The inner `for nb in self.neighbors(cur)` loop of the BFS: skip visited or
obstacle cells, otherwise mark visited, record the parent and enqueue. -/
def pushNeighbors (g : GameLogic) (cur : Cell) :
    List Cell → List Cell → List Cell → List (Cell × Cell) →
    List Cell × List Cell × List (Cell × Cell)
  | [], q, visited, parent => (q, visited, parent)
  | nb :: rest, q, visited, parent =>
    if nb ∈ visited ∨ nb ∈ g.obstacles then
      pushNeighbors g cur rest q visited parent
    else
      pushNeighbors g cur rest (q ++ [nb]) (nb :: visited) ((nb, cur) :: parent)

/-- The `while q:` loop of `shortest_path_to_edge`: pop the queue head, return
the reconstructed path if it is an edge cell, otherwise push its fresh
neighbors and continue. -/
def bfsLoop (g : GameLogic) : Nat → List Cell → List Cell → List (Cell × Cell) → List Cell
  | 0, _, _, _ => []
  | _ + 1, [], _, _ => []
  | fuel + 1, cur :: qrest, visited, parent =>
    if g.is_edge cur = true then
      reconstruct parent g.frog (parent.length + 1) [cur]
    else
      let s := pushNeighbors g cur (g.neighbors cur) qrest visited parent
      bfsLoop g fuel s.1 s.2.1 s.2.2

/-- `shortest_path_to_edge`: immediate `[frog]` when the frog already stands
on an edge cell, otherwise BFS from the frog.  The fuel `rows*cols + 1`
strictly exceeds the loop's decreasing measure (number of unvisited in-bounds
cells plus queue length), so the fuel never runs out. -/
def shortest_path_to_edge (g : GameLogic) : List Cell :=
  let start := g.frog
  if g.is_edge start = true then [start]
  else bfsLoop g (g.rows.toNat * g.cols.toNat + 1) [start] [start] []

/-- The return value of `step_after_click` (the Python result `dict`). -/
structure StepResult where
  added : Bool
  path : List Cell
  moved_to : Cell
  status : Status
deriving DecidableEq, Repr

/-- `step_after_click`: attempt the obstacle placement, freeze if the game is
already decided, win on an empty path, otherwise hop one cell along the path
and lose if the frog now stands on an edge. -/
def step_after_click (g : GameLogic) (r c : Int) : StepResult × GameLogic :=
  let a := add_obstacle g r c
  let added := a.1
  let g1 := a.2
  if g1.status = Status.in_progress then
    let path := shortest_path_to_edge g1
    if path = [] then
      let g2 : GameLogic := { g1 with status := Status.win }
      ({ added := added, path := [], moved_to := g2.frog, status := g2.status }, g2)
    else
      let g2 : GameLogic :=
        if 2 ≤ path.length then
          let nbs := g1.neighbors g1.frog
          let next_cell : Option Cell :=
            match path.drop 1 with
            | [] => none
            | p1 :: _ =>
              if p1 ∈ nbs then some p1
              else (path.drop 1).find? (fun p => decide (p ∈ nbs))
          match next_cell with
          | some nc => { g1 with frog := nc }
          | none => g1
        else g1
      let g3 : GameLogic :=
        if g2.is_edge g2.frog = true then { g2 with status := Status.lose } else g2
      ({ added := added, path := path, moved_to := g3.frog, status := g3.status }, g3)
  else
    ({ added := added, path := [], moved_to := g1.frog, status := g1.status }, g1)

/-- Python `set.add` on the obstacle list: ignore duplicates. -/
def insertCell (cell : Cell) (obstacles : List Cell) : List Cell :=
  if cell ∈ obstacles then obstacles else cell :: obstacles

/-- The `while` loop of `spawn_initial_obstacles`.  `samples` is the stream of
cells produced by the two `random.randrange` calls; one sample is consumed per
iteration and `attempts` counts iterations exactly as in the Python loop.
The loop stops when the obstacle count reaches `n` or `attempts` reaches the
bound; a `samples` list of length at least the bound therefore reproduces the
Python behaviour exactly. -/
def spawnLoop (frog : Cell) (n bound : Int) :
    List Cell → List Cell → Int → List Cell
  | [], obstacles, _ => obstacles
  | sample :: rest, obstacles, attempts =>
    if (obstacles.length : Int) < n ∧ attempts < bound then
      if sample = frog then
        spawnLoop frog n bound rest obstacles (attempts + 1)
      else
        spawnLoop frog n bound rest (insertCell sample obstacles) (attempts + 1)
    else obstacles

/-- `spawn_initial_obstacles`: clear the obstacle set and run the sampling
loop; `n` is the result of `random.randint(self.min_obstacles,
self.max_obstacles)`. -/
def spawn_initial_obstacles (g : GameLogic) (n : Int) (samples : List Cell) : GameLogic :=
  { g with obstacles := spawnLoop g.frog n (n * 10 + 100) samples [] 0 }

/-- `GameLogic.__init__`: set up the fields and immediately spawn the initial
obstacles. -/
def init (rows cols min_obstacles max_obstacles : Int) (n : Int)
    (samples : List Cell) : GameLogic :=
  spawn_initial_obstacles
    { rows := rows, cols := cols, min_obstacles := min_obstacles,
      max_obstacles := max_obstacles, frog := (rows / 2, cols / 2),
      obstacles := [], status := Status.in_progress } n samples

/-- `reset`: recentre the frog, clear the obstacles, set the status back to
`in_progress` and respawn. -/
def reset (g : GameLogic) (n : Int) (samples : List Cell) : GameLogic :=
  spawn_initial_obstacles
    { g with frog := (g.rows / 2, g.cols / 2), obstacles := [],
             status := Status.in_progress } n samples

/-- `get_state`: the JSON-serializable snapshot returned by the Python
method (the obstacle list stands for the serialized set). -/
def get_state (g : GameLogic) : Int × Int × Cell × List Cell × Status :=
  (g.rows, g.cols, g.frog, g.obstacles, g.status)

end GameLogic

open GameLogic

/-- The state invariant of the engine: the frog is in bounds, the frog cell
is not an obstacle, and every obstacle is in bounds. -/
def Inv (g : GameLogic) : Prop :=
  g.in_bounds g.frog = true ∧ g.frog ∉ g.obstacles ∧
  ∀ x ∈ g.obstacles, g.in_bounds x = true

/-- A valid escape path: starts at the frog's cell, ends at an edge cell,
consecutive cells are hex-adjacent, and no cell is an obstacle. -/
def ValidPath (g : GameLogic) (p : List Cell) : Prop :=
  p.head? = some g.frog ∧
  (∃ e, p.getLast? = some e ∧ g.is_edge e = true) ∧
  List.Chain' (fun a b => b ∈ g.neighbors a) p ∧
  ∀ x ∈ p, x ∉ g.obstacles

/-- What the BFS guarantees about a nonempty result: a valid path whose
cells are moreover all in bounds. -/
def BfsGood (g : GameLogic) (r : List Cell) : Prop :=
  r.head? = some g.frog ∧
  (∃ e, r.getLast? = some e ∧ g.is_edge e = true) ∧
  List.Chain' (fun a b => b ∈ g.neighbors a) r ∧
  ∀ x ∈ r, x ∉ g.obstacles ∧ g.in_bounds x = true

/-- Combined soundness / minimality conclusion about a BFS result list. -/
def BfsConc (g : GameLogic) (r : List Cell) : Prop :=
  (r ≠ [] → BfsGood g r) ∧
  ∀ p, ValidPath g p → r ≠ [] ∧ r.length ≤ p.length

/-- `reachN g s n x`: there is an `n`-edge walk from `s` to `x` through
non-obstacle cells none of whose cells before `x` is an edge cell (BFS stops
at the first edge cell, so only such walks matter for it). -/
def reachN (g : GameLogic) (s : Cell) : Nat → Cell → Prop
  | 0, x => x = s
  | n + 1, x =>
    ∃ y, reachN g s n y ∧ g.is_edge y = false ∧ x ∈ g.neighbors y ∧
      x ∉ g.obstacles

/-- All in-bounds cells of the grid, as a duplicate-free list. -/
def allCells (g : GameLogic) : List Cell :=
  ((List.range g.rows.toNat) ×ˢ (List.range g.cols.toNat)).map
    (fun p => ((p.1 : Int), (p.2 : Int)))

/-- Number of in-bounds cells not yet visited; together with the queue length
this is the strictly decreasing measure of the BFS loop. -/
def unvisitedCount (g : GameLogic) (visited : List Cell) : Nat :=
  ((allCells g).filter (fun x => decide (x ∉ visited))).length

/-- Loop invariant of the BFS in `shortest_path_to_edge`, relative to a ghost
distance function `D` and the current layer `d`.  The queue is split as
`q1 ++ q2` with `q1` holding the cells at distance `d` and `q2` those at
distance `d + 1`. -/
structure BfsInv (g : GameLogic) (D : Cell → Nat) (d : Nat)
    (q1 q2 visited : List Cell) (parent : List (Cell × Cell)) : Prop where
  start_mem : g.frog ∈ visited
  nodup_visited : visited.Nodup
  nodup_queue : (q1 ++ q2).Nodup
  queue_sub : ∀ x ∈ q1 ++ q2, x ∈ visited
  visited_in : ∀ x ∈ visited, g.in_bounds x = true
  visited_obs : ∀ x ∈ visited, x ∉ g.obstacles
  dist_start : D g.frog = 0
  layer1 : ∀ x ∈ q1, D x = d
  layer2 : ∀ x ∈ q2, D x = d + 1
  parent_spec : ∀ x ∈ visited, x ≠ g.frog →
    ∃ y, lookupCell x parent = some y ∧ y ∈ visited ∧ x ∈ g.neighbors y ∧
      D x = D y + 1
  parent_dom : ∀ xy ∈ parent, xy.1 ∈ visited ∧ xy.1 ≠ g.frog
  dist_le : ∀ x ∈ visited, D x ≤ parent.length
  done_closed : ∀ x ∈ visited, x ∉ q1 ++ q2 →
    ∀ y ∈ g.neighbors x, y ∉ g.obstacles → y ∈ visited
  done_no_edge : ∀ x ∈ visited, x ∉ q1 ++ q2 → g.is_edge x = false
  reach_vis : ∀ n z, n ≤ d → reachN g g.frog n z → z ∈ visited
  dist_min : ∀ x ∈ visited, ∀ n, reachN g g.frog n x → D x ≤ n

/-- Iterated `step_after_click` for a list of clicks (used to express
reachability of states from a starting state). -/
def stepMany (g : GameLogic) : List (Int × Int) → GameLogic
  | [] => g
  | (r, c) :: rest => stepMany (step_after_click g r c).2 rest

/-- Iterating `step_after_click(99, 99)` (the lose-condition scenario). -/
def iter99 (g : GameLogic) : Nat → GameLogic
  | 0 => g
  | k + 1 => (step_after_click (iter99 g k) 99 99).2

/-- The 11×11 engine of the lose-condition scenario: frog at `(5, 5)`, empty
obstacle set (constructed with obstacle-count `n = 0`), status in progress. -/
def g9 : GameLogic := init 11 11 0 0 0 []

/-- A 3×3 state with the frog centred and no obstacles (witness state). -/
def gW : GameLogic :=
  { rows := 3, cols := 3, min_obstacles := 0, max_obstacles := 0,
    frog := (1, 1), obstacles := [], status := Status.in_progress }

/-- A 3×3 in-progress state whose frog is completely walled in by obstacles
(witness state for the win-on-empty-path rule). -/
def gTrap : GameLogic :=
  { rows := 3, cols := 3, min_obstacles := 0, max_obstacles := 0,
    frog := (1, 1), obstacles := [(0, 1), (0, 2), (1, 0), (1, 2), (2, 1), (2, 2)],
    status := Status.in_progress }

/-- A reachable terminal state: on a 1×2 grid the frog starts on an edge
cell, so the very first step loses; the obstacle set is still empty. -/
def gLose : GameLogic := (step_after_click (init 1 2 0 0 0 []) 99 99).2

/-- Initial state of the obstacle-count counterexample: a 3×3 grid with
`min_obstacles = max_obstacles = 1`, target count `n = 1`, where every one of
the 110 allowed sampling attempts happens to hit the frog's cell. -/
def gSpawn : GameLogic := init 3 3 1 1 1 (List.replicate 110 ((1 : Int), (1 : Int)))

/-! ### Basic lemmas about the primitive operations -/

theorem in_bounds_iff (g : GameLogic) (x : Cell) :
    g.in_bounds x = true ↔
      0 ≤ x.1 ∧ x.1 < g.rows ∧ 0 ≤ x.2 ∧ x.2 < g.cols := by
  simp [GameLogic.in_bounds, and_assoc]

theorem is_edge_iff (g : GameLogic) (x : Cell) :
    g.is_edge x = true ↔
      x.1 = 0 ∨ x.1 = g.rows - 1 ∨ x.2 = 0 ∨ x.2 = g.cols - 1 := by
  simp [GameLogic.is_edge, or_assoc]

theorem in_bounds_congr (g g' : GameLogic) (hr : g'.rows = g.rows)
    (hc : g'.cols = g.cols) (x : Cell) : g'.in_bounds x = g.in_bounds x := by
  unfold GameLogic.in_bounds
  rw [hr, hc]

theorem is_edge_congr (g g' : GameLogic) (hr : g'.rows = g.rows)
    (hc : g'.cols = g.cols) (x : Cell) : g'.is_edge x = g.is_edge x := by
  unfold GameLogic.is_edge
  rw [hr, hc]

theorem neighbors_congr (g g' : GameLogic) (hr : g'.rows = g.rows)
    (hc : g'.cols = g.cols) (x : Cell) : g'.neighbors x = g.neighbors x := by
  unfold GameLogic.neighbors
  congr 1
  funext nb
  rw [in_bounds_congr g g' hr hc]

theorem mem_neighbors_in_bounds (g : GameLogic) {x c : Cell}
    (h : x ∈ g.neighbors c) : g.in_bounds x = true := by
  unfold GameLogic.neighbors at h
  exact (List.mem_filter.mp h).2

theorem add_obstacle_spec (g : GameLogic) (r c : Int) :
    ((add_obstacle g r c).1 = false ↔
      (g.in_bounds (r, c) = false ∨ (r, c) = g.frog ∨ (r, c) ∈ g.obstacles)) ∧
    ((add_obstacle g r c).1 = false → (add_obstacle g r c).2 = g) ∧
    ((add_obstacle g r c).1 = true →
      (add_obstacle g r c).2 = { g with obstacles := (r, c) :: g.obstacles }) := by
  unfold GameLogic.add_obstacle
  by_cases h1 : g.in_bounds (r, c) = true
  · by_cases h2 : ((r, c) : Cell) = g.frog
    · simp [h1, h2]
    · by_cases h3 : ((r, c) : Cell) ∈ g.obstacles
      · simp [h1, h2, h3]
      · simp [h1, h2, h3]
  · simp only [Bool.not_eq_true] at h1
    simp [h1]

theorem add_obstacle_fields (g : GameLogic) (r c : Int) :
    (add_obstacle g r c).2.rows = g.rows ∧
    (add_obstacle g r c).2.cols = g.cols ∧
    (add_obstacle g r c).2.frog = g.frog ∧
    (add_obstacle g r c).2.status = g.status ∧
    (add_obstacle g r c).2.min_obstacles = g.min_obstacles ∧
    (add_obstacle g r c).2.max_obstacles = g.max_obstacles := by
  cases hb : (add_obstacle g r c).1 with
  | false => rw [(add_obstacle_spec g r c).2.1 hb]; exact ⟨rfl, rfl, rfl, rfl, rfl, rfl⟩
  | true => rw [(add_obstacle_spec g r c).2.2 hb]; exact ⟨rfl, rfl, rfl, rfl, rfl, rfl⟩

theorem add_obstacle_true_conds (g : GameLogic) (r c : Int)
    (hb : (add_obstacle g r c).1 = true) :
    g.in_bounds (r, c) = true ∧ (r, c) ≠ g.frog ∧ (r, c) ∉ g.obstacles := by
  have h := (add_obstacle_spec g r c).1
  rw [hb] at h
  simp only [Bool.true_eq_false, false_iff] at h
  push_neg at h
  refine ⟨?_, h.2.1, h.2.2⟩
  cases hbv : g.in_bounds (r, c) with
  | false => exact absurd hbv h.1
  | true => rfl

theorem add_obstacle_Inv (g : GameLogic) (r c : Int) (h : Inv g) :
    Inv (add_obstacle g r c).2 := by
  obtain ⟨hfin, hfobs, hbobs⟩ := h
  cases hb : (add_obstacle g r c).1 with
  | false => rw [(add_obstacle_spec g r c).2.1 hb]; exact ⟨hfin, hfobs, hbobs⟩
  | true =>
    obtain ⟨hin, hne, hmem⟩ := add_obstacle_true_conds g r c hb
    rw [(add_obstacle_spec g r c).2.2 hb]
    refine ⟨hfin, ?_, ?_⟩
    · intro hm
      rcases List.mem_cons.mp hm with h1 | h1
      · exact hne h1.symm
      · exact hfobs h1
    · intro x hx
      rcases List.mem_cons.mp hx with h1 | h1
      · subst h1; exact hin
      · exact hbobs x h1

theorem spte_edge_start (g : GameLogic) (h : g.is_edge g.frog = true) :
    shortest_path_to_edge g = [g.frog] := by
  unfold GameLogic.shortest_path_to_edge
  simp [h]

/-! ### Branch-unfolding lemmas for `step_after_click` -/

theorem step_frozen (g : GameLogic) (r c : Int)
    (h : ¬ g.status = Status.in_progress) :
    step_after_click g r c =
      ({ added := (add_obstacle g r c).1, path := [], moved_to := g.frog,
         status := g.status }, (add_obstacle g r c).2) := by
  have hst := (add_obstacle_fields g r c).2.2.2.1
  have hfr := (add_obstacle_fields g r c).2.2.1
  unfold GameLogic.step_after_click
  rw [if_neg (by rw [hst]; exact h)]
  rw [hst, hfr]

theorem step_win (g : GameLogic) (r c : Int) (h : g.status = Status.in_progress)
    (hp : shortest_path_to_edge (add_obstacle g r c).2 = []) :
    step_after_click g r c =
      ({ added := (add_obstacle g r c).1, path := [], moved_to := g.frog,
         status := Status.win },
        { (add_obstacle g r c).2 with status := Status.win }) := by
  have hst := (add_obstacle_fields g r c).2.2.2.1
  have hfr := (add_obstacle_fields g r c).2.2.1
  unfold GameLogic.step_after_click
  rw [if_pos (by rw [hst]; exact h)]
  rw [hp]
  rw [if_pos rfl]
  simp [hfr]

theorem step_single (g : GameLogic) (r c : Int) (h : g.status = Status.in_progress)
    {x : Cell} (hp : shortest_path_to_edge (add_obstacle g r c).2 = [x]) :
    step_after_click g r c =
      ({ added := (add_obstacle g r c).1, path := [x], moved_to := g.frog,
         status :=
           if (add_obstacle g r c).2.is_edge ((add_obstacle g r c).2.frog) = true
           then Status.lose else g.status },
       if (add_obstacle g r c).2.is_edge ((add_obstacle g r c).2.frog) = true
       then { (add_obstacle g r c).2 with status := Status.lose }
       else (add_obstacle g r c).2) := by
  have hst := (add_obstacle_fields g r c).2.2.2.1
  have hfr := (add_obstacle_fields g r c).2.2.1
  unfold GameLogic.step_after_click
  rw [if_pos (by rw [hst]; exact h), hp]
  by_cases he : (add_obstacle g r c).2.is_edge g.frog = true
  · simp [he, hst, hfr]
  · simp [he, hst, hfr]

theorem step_move (g : GameLogic) (r c : Int) (h : g.status = Status.in_progress)
    {x nc : Cell} {rest : List Cell}
    (hp : shortest_path_to_edge (add_obstacle g r c).2 = x :: nc :: rest)
    (hnb : nc ∈ (add_obstacle g r c).2.neighbors ((add_obstacle g r c).2.frog)) :
    step_after_click g r c =
      ({ added := (add_obstacle g r c).1, path := x :: nc :: rest, moved_to := nc,
         status :=
           if (add_obstacle g r c).2.is_edge nc = true
           then Status.lose else g.status },
       if (add_obstacle g r c).2.is_edge nc = true
       then { (add_obstacle g r c).2 with frog := nc, status := Status.lose }
       else { (add_obstacle g r c).2 with frog := nc }) := by
  have hst := (add_obstacle_fields g r c).2.2.2.1
  have hedge2 : ∀ z : Cell,
      GameLogic.is_edge { (add_obstacle g r c).2 with frog := nc } z =
        (add_obstacle g r c).2.is_edge z :=
    fun z => is_edge_congr _ _ rfl rfl z
  unfold GameLogic.step_after_click
  rw [if_pos (by rw [hst]; exact h), hp]
  by_cases he : (add_obstacle g r c).2.is_edge nc = true
  · simp only [List.length_cons, Nat.le_add_left, if_true, List.drop_succ_cons,
      List.drop_zero, hnb, if_pos, hedge2, he]
    simp [hst]
  · simp only [List.length_cons, Nat.le_add_left, if_true, List.drop_succ_cons,
      List.drop_zero, hnb, if_pos, hedge2, he]
    simp [hst, he]

theorem step_snd_shape (g : GameLogic) (r c : Int) :
    ∃ fr st, (step_after_click g r c).2 =
      { (add_obstacle g r c).2 with frog := fr, status := st } := by
  unfold GameLogic.step_after_click
  simp only []
  split
  · split
    · exact ⟨_, _, rfl⟩
    · repeat' split
      all_goals exact ⟨_, _, rfl⟩
  · exact ⟨_, _, rfl⟩

theorem step_dims (g : GameLogic) (r c : Int) :
    (step_after_click g r c).2.rows = g.rows ∧
    (step_after_click g r c).2.cols = g.cols ∧
    (step_after_click g r c).2.min_obstacles = g.min_obstacles ∧
    (step_after_click g r c).2.max_obstacles = g.max_obstacles := by
  obtain ⟨fr, st, hshape⟩ := step_snd_shape g r c
  rw [hshape]
  have h := add_obstacle_fields g r c
  exact ⟨h.1, h.2.1, h.2.2.2.2.1, h.2.2.2.2.2⟩

theorem init_fields (rows cols mi ma n : Int) (samples : List Cell) :
    (init rows cols mi ma n samples).rows = rows ∧
    (init rows cols mi ma n samples).cols = cols ∧
    (init rows cols mi ma n samples).frog = (rows / 2, cols / 2) ∧
    (init rows cols mi ma n samples).status = Status.in_progress ∧
    (init rows cols mi ma n samples).min_obstacles = mi ∧
    (init rows cols mi ma n samples).max_obstacles = ma :=
  ⟨rfl, rfl, rfl, rfl, rfl, rfl⟩

/-! ### Obstacle spawning -/

theorem insertCell_length (cell : Cell) (l : List Cell) :
    (insertCell cell l).length = l.length ∨
    (insertCell cell l).length = l.length + 1 := by
  unfold GameLogic.insertCell
  split
  · exact Or.inl rfl
  · exact Or.inr (by simp)

theorem spawnLoop_length_le (frog : Cell) (n bound : Int) :
    ∀ (samples obstacles : List Cell) (attempts : Int),
      (obstacles.length : Int) ≤ n →
      ((spawnLoop frog n bound samples obstacles attempts).length : Int) ≤ n := by
  intro samples
  induction samples with
  | nil => intro obstacles attempts h; exact h
  | cons s rest ih =>
    intro obstacles attempts h
    unfold GameLogic.spawnLoop
    split
    · split
      · exact ih obstacles (attempts + 1) h
      · rename_i hcond _
        refine ih _ (attempts + 1) ?_
        rcases insertCell_length s obstacles with h1 | h1 <;> rw [h1] <;>
          push_cast <;> omega
    · exact h

theorem spawnLoop_mem (frog : Cell) (n bound : Int) :
    ∀ (samples obstacles : List Cell) (attempts : Int)
      (x : Cell), x ∈ spawnLoop frog n bound samples obstacles attempts →
      x ∈ obstacles ∨ (x ∈ samples ∧ x ≠ frog) := by
  intro samples
  induction samples with
  | nil => intro obstacles attempts x hx; exact Or.inl hx
  | cons s rest ih =>
    intro obstacles attempts x hx
    unfold GameLogic.spawnLoop at hx
    split at hx
    · split at hx
      · rcases ih obstacles (attempts + 1) x hx with h1 | h1
        · exact Or.inl h1
        · exact Or.inr ⟨List.mem_cons_of_mem _ h1.1, h1.2⟩
      · rename_i hcond hne
        rcases ih _ (attempts + 1) x hx with h1 | h1
        · unfold GameLogic.insertCell at h1
          split at h1
          · exact Or.inl h1
          · rcases List.mem_cons.mp h1 with h2 | h2
            · exact Or.inr ⟨by rw [h2]; exact List.mem_cons_self s rest, by rw [h2]; exact hne⟩
            · exact Or.inl h2
        · exact Or.inr ⟨List.mem_cons_of_mem _ h1.1, h1.2⟩
    · exact Or.inl hx

theorem spawn_state_Inv (g0 : GameLogic) (n : Int) (samples : List Cell)
    (hfin : g0.in_bounds g0.frog = true)
    (hs : ∀ x ∈ samples, g0.in_bounds x = true) :
    Inv (spawn_initial_obstacles g0 n samples) := by
  have hmem := spawnLoop_mem g0.frog n (n * 10 + 100) samples [] 0
  refine ⟨hfin, ?_, ?_⟩
  · intro hm
    rcases hmem _ hm with h1 | h1
    · exact (List.not_mem_nil _ h1)
    · exact h1.2 rfl
  · intro x hx
    rcases hmem x hx with h1 | h1
    · exact absurd h1 (List.not_mem_nil x)
    · exact hs x h1.1

/-! ### The BFS parent map and queue bookkeeping -/

theorem lookupCell_cons (x a b : Cell) (rest : List (Cell × Cell)) :
    lookupCell x ((a, b) :: rest) =
      if a = x then some b else lookupCell x rest := rfl

theorem lookupCell_append_right (x : Cell) :
    ∀ (L P : List (Cell × Cell)), (∀ ab ∈ L, ab.1 ≠ x) →
      lookupCell x (L ++ P) = lookupCell x P := by
  intro L
  induction L with
  | nil => intro P _; rfl
  | cons ab L' ih =>
    intro P h
    obtain ⟨a, b⟩ := ab
    show lookupCell x ((a, b) :: (L' ++ P)) = _
    rw [lookupCell_cons, if_neg (h (a, b) (List.mem_cons_self _ _))]
    exact ih P (fun p hp => h p (List.mem_cons_of_mem _ hp))

theorem lookupCell_map_const (x cur : Cell) :
    ∀ (L : List Cell) (P : List (Cell × Cell)), x ∈ L →
      lookupCell x (L.map (fun nb => (nb, cur)) ++ P) = some cur := by
  intro L
  induction L with
  | nil => intro P h; cases h
  | cons a L' ih =>
    intro P h
    by_cases hax : a = x
    · show lookupCell x ((a, cur) :: _) = _
      rw [lookupCell_cons, if_pos hax]
    · show lookupCell x ((a, cur) :: _) = _
      rw [lookupCell_cons, if_neg hax]
      refine ih P ?_
      rcases List.mem_cons.mp h with h1 | h1
      · exact absurd h1.symm hax
      · exact h1

theorem pushNeighbors_spec (g : GameLogic) (cur : Cell) :
    ∀ (nbs q visited : List Cell) (parent : List (Cell × Cell)),
      ∃ new : List Cell,
        pushNeighbors g cur nbs q visited parent =
          (q ++ new, new.reverse ++ visited,
            new.reverse.map (fun nb => (nb, cur)) ++ parent) ∧
        new.Nodup ∧
        (∀ x ∈ new, x ∈ nbs ∧ x ∉ visited ∧ x ∉ g.obstacles) ∧
        (∀ x ∈ nbs, x ∉ g.obstacles → x ∈ new.reverse ++ visited) := by
  intro nbs
  induction nbs with
  | nil =>
    intro q visited parent
    exact ⟨[], by simp [GameLogic.pushNeighbors], List.nodup_nil, by simp, by simp⟩
  | cons nb rest ih =>
    intro q visited parent
    by_cases hskip : nb ∈ visited ∨ nb ∈ g.obstacles
    · obtain ⟨new, heq, hnd, hprops, hcomp⟩ := ih q visited parent
      refine ⟨new, ?_, hnd, ?_, ?_⟩
      · show (if nb ∈ visited ∨ nb ∈ g.obstacles then _ else _) = _
        rw [if_pos hskip]
        exact heq
      · intro x hx
        obtain ⟨h1, h2, h3⟩ := hprops x hx
        exact ⟨List.mem_cons_of_mem _ h1, h2, h3⟩
      · intro x hx hobs
        rcases List.mem_cons.mp hx with h1 | h1
        · subst h1
          rcases hskip with h2 | h2

          · exact List.mem_append_right _ h2
          · exact absurd h2 hobs
        · exact hcomp x h1 hobs
    · push_neg at hskip
      obtain ⟨new', heq, hnd, hprops, hcomp⟩ :=
        ih (q ++ [nb]) (nb :: visited) ((nb, cur) :: parent)
      refine ⟨nb :: new', ?_, ?_, ?_, ?_⟩
      · show (if nb ∈ visited ∨ nb ∈ g.obstacles then _ else _) = _
        rw [if_neg (by push_neg; exact hskip)]
        rw [heq]
        refine congrArg₂ _ (by simp) (congrArg₂ _ (by simp) ?_)
        simp
      · refine List.nodup_cons.mpr ⟨?_, hnd⟩
        intro hmem
        exact (hprops nb hmem).2.1 (List.mem_cons_self _ _)
      · intro x hx
        rcases List.mem_cons.mp hx with h1 | h1
        · subst h1
          exact ⟨List.mem_cons_self _ _, hskip.1, hskip.2⟩
        · obtain ⟨h2, h3, h4⟩ := hprops x h1
          exact ⟨List.mem_cons_of_mem _ h2,
            fun hm => h3 (List.mem_cons_of_mem _ hm), h4⟩
      · intro x hx hobs
        rcases List.mem_cons.mp hx with h1 | h1
        · subst h1
          simp
        · have := hcomp x h1 hobs
          rcases List.mem_append.mp this with h2 | h2
          · refine List.mem_append_left _ ?_
            simp only [List.reverse_cons]
            exact List.mem_append_left _ h2
          · rcases List.mem_cons.mp h2 with h3 | h3
            · subst h3
              simp
            · exact List.mem_append_right _ h3

/-! ### Counting unvisited cells (the BFS termination measure) -/

theorem length_allCells (g : GameLogic) :
    (allCells g).length = g.rows.toNat * g.cols.toNat := by
  unfold allCells
  rw [List.length_map, List.length_product, List.length_range, List.length_range]

theorem nodup_allCells (g : GameLogic) : (allCells g).Nodup := by
  unfold allCells
  refine List.Nodup.map ?_
    (List.Nodup.product (List.nodup_range _) (List.nodup_range _))
  intro p q h
  obtain ⟨p1, p2⟩ := p
  obtain ⟨q1, q2⟩ := q
  simp only [Prod.mk.injEq] at h ⊢
  omega

theorem mem_allCells (g : GameLogic) (x : Cell) (h : g.in_bounds x = true) :
    x ∈ allCells g := by
  rw [in_bounds_iff] at h
  unfold allCells
  refine List.mem_map.mpr ⟨(x.1.toNat, x.2.toNat), ?_, ?_⟩
  · refine List.pair_mem_product.mpr ⟨?_, ?_⟩
    · rw [List.mem_range]; omega
    · rw [List.mem_range]; omega
  · obtain ⟨x1, x2⟩ := x
    simp only [Prod.mk.injEq]
    constructor <;> omega

theorem length_filter_ne {α : Type} [DecidableEq α] (x : α) :
    ∀ (l : List α), l.Nodup → x ∈ l →
      (l.filter (fun z => decide (z ≠ x))).length + 1 = l.length := by
  intro l
  induction l with
  | nil => intro _ h; cases h
  | cons a l' ih =>
    intro hnd hm
    by_cases hax : a = x
    · subst hax
      have hnx : a ∉ l' := (List.nodup_cons.mp hnd).1
      rw [List.filter_cons_of_neg (by simp)]
      rw [List.filter_eq_self.mpr ?_]
      · simp
      · intro z hz
        simp only [decide_eq_true_eq]
        intro hza
        exact hnx (hza ▸ hz)
    · rw [List.filter_cons_of_pos (by simp [hax])]
      have hm' : x ∈ l' := by
        rcases List.mem_cons.mp hm with h1 | h1
        · exact absurd h1.symm hax
        · exact h1
      have := ih (List.nodup_cons.mp hnd).2 hm'
      simp only [List.length_cons]
      omega

theorem unvisitedCount_cons (g : GameLogic) (x : Cell) (visited : List Cell)
    (hx : g.in_bounds x = true) (hnx : x ∉ visited) :
    unvisitedCount g (x :: visited) + 1 = unvisitedCount g visited := by
  unfold unvisitedCount
  have hfun : (fun z : Cell => decide (z ∉ x :: visited)) =
      fun z : Cell => decide (z ≠ x) && decide (z ∉ visited) := by
    funext z
    by_cases h1 : z ∈ visited
    · simp [h1]
    · by_cases h2 : z = x
      · simp [h1, h2]
      · simp [h1, h2]
  rw [hfun]
  rw [← List.filter_filter]
  refine length_filter_ne x _ ?_ ?_
  · exact List.Nodup.filter _ (nodup_allCells g)
  · exact List.mem_filter.mpr ⟨mem_allCells g x hx, by simpa using hnx⟩

theorem unvisitedCount_append_new (g : GameLogic) :
    ∀ (new visited : List Cell), new.Nodup →
      (∀ x ∈ new, g.in_bounds x = true) → (∀ x ∈ new, x ∉ visited) →
      unvisitedCount g (new.reverse ++ visited) + new.length =
        unvisitedCount g visited := by
  intro new
  induction new with
  | nil => intro visited _ _ _; simp
  | cons a new' ih =>
    intro visited hnd hin hdisj
    have h1 : (a :: new').reverse ++ visited = new'.reverse ++ (a :: visited) := by
      simp
    rw [h1]
    have h2 := ih (a :: visited) (List.nodup_cons.mp hnd).2
      (fun x hx => hin x (List.mem_cons_of_mem a hx))
      (fun x hx => by
        intro hmem
        rcases List.mem_cons.mp hmem with h | h
        · exact (List.nodup_cons.mp hnd).1 (h ▸ hx)
        · exact hdisj x (List.mem_cons_of_mem a hx) h)
    have h3 := unvisitedCount_cons g a visited (hin a (List.mem_cons_self a new'))
      (hdisj a (List.mem_cons_self a new'))
    simp only [List.length_cons]
    omega

theorem unvisitedCount_lt_allCells (g : GameLogic) (x : Cell) (visited : List Cell)
    (hx : g.in_bounds x = true) (hmem : x ∈ visited) :
    unvisitedCount g visited < (allCells g).length := by
  refine List.length_filter_lt_length_iff_exists.mpr ⟨x, mem_allCells g x hx, ?_⟩
  simp [hmem]

/-! ### Path reconstruction -/

theorem reconstruct_spec (g : GameLogic) (D : Cell → Nat) (visited : List Cell)
    (parent : List (Cell × Cell)) (hd0 : D g.frog = 0)
    (hps : ∀ x ∈ visited, x ≠ g.frog →
      ∃ y, lookupCell x parent = some y ∧ y ∈ visited ∧ x ∈ g.neighbors y ∧
        D x = D y + 1) :
    ∀ (m : Nat) (x : Cell), x ∈ visited → D x = m →
      ∀ (fuel : Nat), m < fuel → ∀ (acc : List Cell),
      ∃ pre, reconstruct parent g.frog fuel (x :: acc) = pre ++ x :: acc ∧
        pre.length = m ∧ (pre ++ [x]).head? = some g.frog ∧
        List.Chain' (fun a b => b ∈ g.neighbors a) (pre ++ [x]) ∧
        ∀ z ∈ pre ++ [x], z ∈ visited := by
  intro m
  induction m with
  | zero =>
    intro x hx hDx fuel hfuel acc
    have hxf : x = g.frog := by
      by_contra hne
      obtain ⟨y, _, _, _, hD⟩ := hps x hx hne
      omega
    obtain ⟨f, rfl⟩ : ∃ f, fuel = f + 1 := ⟨fuel - 1, by omega⟩
    refine ⟨[], ?_, rfl, by simp [hxf], by simp, ?_⟩
    · show reconstruct parent g.frog (f + 1) (x :: acc) = x :: acc
      unfold GameLogic.reconstruct
      rw [if_pos hxf]
    · intro z hz
      simp only [List.nil_append, List.mem_singleton] at hz
      exact hz ▸ hx
  | succ m ih =>
    intro x hx hDx fuel hfuel acc
    have hxf : x ≠ g.frog := by
      intro h
      rw [h, hd0] at hDx
      omega
    obtain ⟨y, hlook, hymem, hadj, hDxy⟩ := hps x hx hxf
    have hDy : D y = m := by omega
    obtain ⟨f, rfl⟩ : ∃ f, fuel = f + 1 := ⟨fuel - 1, by omega⟩
    have hred : reconstruct parent g.frog (f + 1) (x :: acc) =
        (if x = g.frog then x :: acc
         else
           match lookupCell x parent with
           | some p => reconstruct parent g.frog f (p :: x :: acc)
           | none => x :: acc) := rfl
    have hstep : reconstruct parent g.frog (f + 1) (x :: acc) =
        reconstruct parent g.frog f (y :: x :: acc) := by
      rw [hred, if_neg hxf, hlook]
    obtain ⟨pre', heq, hlen, hhead, hchain, hmem⟩ :=
      ih y hymem hDy f (by omega) (x :: acc)
    refine ⟨pre' ++ [y], ?_, by simp [hlen], ?_, ?_, ?_⟩
    · rw [hstep, heq]
      simp
    · rw [List.head?_append, hhead]
      exact Option.or_some
    · refine List.Chain'.append hchain (List.chain'_singleton x) ?_
      intro a ha b hb
      rw [List.getLast?_concat] at ha
      simp only [List.head?_cons, Option.mem_some_iff] at ha hb
      subst ha
      subst hb
      exact hadj
    · intro z hz
      rcases List.mem_append.mp hz with h1 | h1
      · exact hmem z h1
      · simp only [List.mem_singleton] at h1
        exact h1 ▸ hx

/-! ### Paths yield bounded reachability -/

theorem chain_to_reach (g : GameLogic) :
    ∀ (p : List Cell) (x : Cell) (m : Nat),
      reachN g g.frog m x → g.is_edge x = false →
      List.Chain' (fun a b => b ∈ g.neighbors a) (x :: p) →
      (∀ z ∈ x :: p, z ∉ g.obstacles) →
      (∃ e ∈ x :: p, g.is_edge e = true) →
      ∃ n e, reachN g g.frog n e ∧ g.is_edge e = true ∧ n ≤ m + p.length := by
  intro p
  induction p with
  | nil =>
    intro x m _ hxe _ _ hedge
    obtain ⟨e, he, hee⟩ := hedge
    simp only [List.mem_singleton] at he
    rw [he] at hee
    rw [hxe] at hee
    cases hee
  | cons y p' ih =>
    intro x m hreach hxe hchain hobs hedge
    have hadj : y ∈ g.neighbors x := (List.chain'_cons.mp hchain).1
    have hyobs : y ∉ g.obstacles := hobs y (List.mem_cons_of_mem _ (List.mem_cons_self _ _))
    have hreachy : reachN g g.frog (m + 1) y := ⟨x, hreach, hxe, hadj, hyobs⟩
    by_cases hye : g.is_edge y = true
    · refine ⟨m + 1, y, hreachy, hye, ?_⟩
      simp only [List.length_cons]
      omega
    · have hye' : g.is_edge y = false := by
        cases hb : g.is_edge y
        · rfl
        · exact absurd hb hye
      obtain ⟨n, e, h1, h2, h3⟩ := ih y (m + 1) hreachy hye'
        (List.chain'_cons.mp hchain).2
        (fun z hz => hobs z (List.mem_cons_of_mem _ hz))
        (by
          obtain ⟨e, he, hee⟩ := hedge
          rcases List.mem_cons.mp he with h1 | h1
          · rw [h1] at hee
            rw [hxe] at hee
            cases hee
          · exact ⟨e, h1, hee⟩)
      refine ⟨n, e, h1, h2, ?_⟩
      simp only [List.length_cons] at h3 ⊢
      omega

theorem valid_to_reach (g : GameLogic) (hedge0 : g.is_edge g.frog = false)
    (p : List Cell) (hv : ValidPath g p) :
    ∃ n e, reachN g g.frog n e ∧ g.is_edge e = true ∧ n + 1 ≤ p.length := by
  obtain ⟨hhead, ⟨e, hlast, hee⟩, hchain, hobs⟩ := hv
  obtain ⟨rest, rfl⟩ : ∃ rest, p = g.frog :: rest := by
    cases p with
    | nil => cases hhead
    | cons a rest =>
      simp only [List.head?_cons, Option.some.injEq] at hhead
      exact ⟨rest, by rw [hhead]⟩
  have hemem : e ∈ g.frog :: rest := by
    obtain ⟨hne, heq⟩ := List.mem_getLast?_eq_getLast hlast
    rw [heq]
    exact List.getLast_mem hne
  obtain ⟨n, e', h1, h2, h3⟩ := chain_to_reach g rest g.frog 0 rfl hedge0 hchain hobs
    ⟨e, hemem, hee⟩
  refine ⟨n, e', h1, h2, ?_⟩
  simp only [List.length_cons]
  omega

/-! ### BFS invariant: consequences and preservation -/

theorem frontier_bound (g : GameLogic) (D : Cell → Nat) (d : Nat)
    (cur : Cell) (q1' q2 visited : List Cell) (parent : List (Cell × Cell))
    (inv : BfsInv g D d (cur :: q1') q2 visited parent) :
    ∀ n e, reachN g g.frog n e → g.is_edge e = true → d ≤ n := by
  intro n e hreach hedge
  by_contra hlt
  push_neg at hlt
  have hev : e ∈ visited := inv.reach_vis n e (by omega) hreach
  have hDe : D e ≤ n := inv.dist_min e hev n hreach
  have henq : e ∉ (cur :: q1') ++ q2 := by
    intro hmem
    rcases List.mem_append.mp hmem with h1 | h1
    · have := inv.layer1 e h1
      omega
    · have := inv.layer2 e h1
      omega
  have hne := inv.done_no_edge e hev henq
  rw [hedge] at hne
  cases hne

theorem reach_all_visited (g : GameLogic) (D : Cell → Nat) (d : Nat)
    (visited : List Cell) (parent : List (Cell × Cell))
    (inv : BfsInv g D d [] [] visited parent) :
    ∀ n z, reachN g g.frog n z → z ∈ visited := by
  intro n
  induction n with
  | zero =>
    intro z hz
    exact hz ▸ inv.start_mem
  | succ n ih =>
    intro z hz
    obtain ⟨y, hy, hye, hadj, hobs⟩ := hz
    exact inv.done_closed y (ih y hy) (by simp) z hadj hobs

theorem BfsInv_shift (g : GameLogic) (D : Cell → Nat) (d : Nat)
    (q2 visited : List Cell) (parent : List (Cell × Cell))
    (inv : BfsInv g D d [] q2 visited parent) :
    BfsInv g D (d + 1) q2 [] visited parent := by
  have hq : ∀ x : Cell, x ∈ q2 ++ ([] : List Cell) ↔ x ∈ ([] : List Cell) ++ q2 := by
    intro x
    simp
  refine
    { start_mem := inv.start_mem
      nodup_visited := inv.nodup_visited
      nodup_queue := by simpa using inv.nodup_queue
      queue_sub := fun x hx => inv.queue_sub x ((hq x).mp hx)
      visited_in := inv.visited_in
      visited_obs := inv.visited_obs
      dist_start := inv.dist_start
      layer1 := inv.layer2
      layer2 := fun x hx => absurd hx (List.not_mem_nil x)
      parent_spec := inv.parent_spec
      parent_dom := inv.parent_dom
      dist_le := inv.dist_le
      done_closed := fun x hx hnq => inv.done_closed x hx (fun hm => hnq ((hq x).mpr hm))
      done_no_edge := fun x hx hnq => inv.done_no_edge x hx (fun hm => hnq ((hq x).mpr hm))
      reach_vis := ?_
      dist_min := inv.dist_min }
  intro n z hn hz
  by_cases hnd : n ≤ d
  · exact inv.reach_vis n z hnd hz
  · have hn' : n = d + 1 := by omega
    subst hn'
    obtain ⟨y, hy, hye, hadj, hobs⟩ := hz
    have hyv : y ∈ visited := inv.reach_vis d y (le_refl d) hy
    have hDy : D y ≤ d := inv.dist_min y hyv d hy
    have hynq : y ∉ ([] : List Cell) ++ q2 := by
      intro hmem
      simp only [List.nil_append] at hmem
      have := inv.layer2 y hmem
      omega
    exact inv.done_closed y hyv hynq z hadj hobs

theorem BfsInv_push (g : GameLogic) (D : Cell → Nat) (d : Nat) (cur : Cell)
    (q1' q2 visited : List Cell) (parent : List (Cell × Cell))
    (inv : BfsInv g D d (cur :: q1') q2 visited parent)
    (hcur_ne : g.is_edge cur = false)
    (new : List Cell) (hnodup : new.Nodup)
    (hnew : ∀ x ∈ new, x ∈ g.neighbors cur ∧ x ∉ visited ∧ x ∉ g.obstacles)
    (hcomp : ∀ x ∈ g.neighbors cur, x ∉ g.obstacles → x ∈ new.reverse ++ visited) :
    BfsInv g (fun x => if x ∈ new then d + 1 else D x) d q1' (q2 ++ new)
      (new.reverse ++ visited)
      (new.reverse.map (fun nb => (nb, cur)) ++ parent) := by
  have hcurV : cur ∈ visited :=
    inv.queue_sub cur (List.mem_append_left _ (List.mem_cons_self _ _))
  have hDcur : D cur = d := inv.layer1 cur (List.mem_cons_self _ _)
  have hdisj : ∀ x ∈ new, x ∉ visited := fun x hx => (hnew x hx).2.1
  have hmemV' : ∀ z : Cell, z ∈ new.reverse ++ visited ↔ z ∈ new ∨ z ∈ visited := by
    intro z
    rw [List.mem_append, List.mem_reverse]
  have hDold : ∀ x ∈ visited, (if x ∈ new then d + 1 else D x) = D x :=
    fun x hx => if_neg (fun h => hdisj x h hx)
  have hqold : ∀ x ∈ q1' ++ q2, x ∈ visited := fun x hx => by
    refine inv.queue_sub x ?_
    rcases List.mem_append.mp hx with h1 | h1
    · exact List.mem_append_left _ (List.mem_cons_of_mem _ h1)
    · exact List.mem_append_right _ h1
  have hnodupq : (q1' ++ q2).Nodup := by
    have h := inv.nodup_queue
    rw [List.cons_append, List.nodup_cons] at h
    exact h.2
  have hcurnq : cur ∉ q1' ++ q2 := by
    have h := inv.nodup_queue
    rw [List.cons_append, List.nodup_cons] at h
    exact h.1
  refine
    { start_mem := List.mem_append_right _ inv.start_mem
      nodup_visited := ?_
      nodup_queue := ?_
      queue_sub := ?_
      visited_in := ?_
      visited_obs := ?_
      dist_start := ?_
      layer1 := ?_
      layer2 := ?_
      parent_spec := ?_
      parent_dom := ?_
      dist_le := ?_
      done_closed := ?_
      done_no_edge := ?_
      reach_vis := ?_
      dist_min := ?_ }
  · -- nodup_visited
    refine List.Nodup.append (List.nodup_reverse.mpr hnodup) inv.nodup_visited ?_
    intro a ha hv
    exact hdisj a (List.mem_reverse.mp ha) hv
  · -- nodup_queue
    rw [← List.append_assoc]
    refine List.Nodup.append hnodupq hnodup ?_
    intro a ha hn
    exact hdisj a hn (hqold a ha)
  · -- queue_sub
    intro x hx
    rw [hmemV']
    rcases List.mem_append.mp hx with h1 | h1
    · exact Or.inr (hqold x (List.mem_append_left _ h1))
    · rcases List.mem_append.mp h1 with h2 | h2
      · exact Or.inr (hqold x (List.mem_append_right _ h2))
      · exact Or.inl h2
  · -- visited_in
    intro x hx
    rcases (hmemV' x).mp hx with h1 | h1
    · exact mem_neighbors_in_bounds g (hnew x h1).1
    · exact inv.visited_in x h1
  · -- visited_obs
    intro x hx
    rcases (hmemV' x).mp hx with h1 | h1
    · exact (hnew x h1).2.2
    · exact inv.visited_obs x h1
  · -- dist_start
    rw [if_neg (fun h => hdisj _ h inv.start_mem)]
    exact inv.dist_start
  · -- layer1
    intro x hx
    have hxv : x ∈ visited := hqold x (List.mem_append_left _ hx)
    rw [hDold x hxv]
    exact inv.layer1 x (List.mem_cons_of_mem _ hx)
  · -- layer2
    intro x hx
    rcases List.mem_append.mp hx with h1 | h1
    · have hxv : x ∈ visited := hqold x (List.mem_append_right _ h1)
      rw [hDold x hxv]
      exact inv.layer2 x h1
    · rw [if_pos h1]
  · -- parent_spec
    intro x hx hxf
    by_cases hxv : x ∈ visited
    · obtain ⟨y, hlook, hyv, hadj, hD⟩ := inv.parent_spec x hxv hxf
      refine ⟨y, ?_, List.mem_append_right _ hyv, hadj, ?_⟩
      · rw [lookupCell_append_right x _ parent ?_]
        · exact hlook
        · intro ab hab
          obtain ⟨nb, hnb, rfl⟩ := List.mem_map.mp hab
          intro hctr
          have hctr' : nb = x := hctr
          exact hdisj nb (List.mem_reverse.mp hnb) (hctr' ▸ hxv)
      · rw [hDold x hxv, hDold y hyv]
        exact hD
    · have hxn : x ∈ new := by
        rcases (hmemV' x).mp hx with h1 | h1
        · exact h1
        · exact absurd h1 hxv
      refine ⟨cur, ?_, List.mem_append_right _ hcurV, (hnew x hxn).1, ?_⟩
      · exact lookupCell_map_const x cur new.reverse parent (List.mem_reverse.mpr hxn)
      · rw [if_pos hxn, hDold cur hcurV, hDcur]
  · -- parent_dom
    intro ab hab
    rcases List.mem_append.mp hab with h1 | h1
    · obtain ⟨nb, hnb, rfl⟩ := List.mem_map.mp h1
      have hnbn : nb ∈ new := List.mem_reverse.mp hnb
      constructor
      · exact (hmemV' nb).mpr (Or.inl hnbn)
      · intro hctr
        have hctr' : nb = g.frog := hctr
        exact hdisj nb hnbn (hctr' ▸ inv.start_mem)
    · obtain ⟨h2, h3⟩ := inv.parent_dom ab h1
      exact ⟨List.mem_append_right _ h2, h3⟩
  · -- dist_le
    intro x hx
    have hlen : (new.reverse.map (fun nb => (nb, cur)) ++ parent).length =
        new.length + parent.length := by
      rw [List.length_append, List.length_map, List.length_reverse]
    rw [hlen]
    rcases (hmemV' x).mp hx with h1 | h1
    · rw [if_pos h1]
      have h2 := inv.dist_le cur hcurV
      have h3 : 1 ≤ new.length := List.length_pos.mpr (List.ne_nil_of_mem h1)
      omega
    · rw [hDold x h1]
      have h2 := inv.dist_le x h1
      omega
  · -- done_closed
    intro x hx hnq
    rcases (hmemV' x).mp hx with h1 | h1
    · exact absurd (List.mem_append_right _ (List.mem_append_right _ h1)) hnq
    · by_cases hxc : x = cur
      · subst hxc
        intro y hy hyo
        exact hcomp y hy hyo
      · have hxnq : x ∉ q1' ++ q2 := by
          intro hmem
          rcases List.mem_append.mp hmem with h2 | h2
          · exact hnq (List.mem_append_left _ h2)
          · exact hnq (List.mem_append_right _ (List.mem_append_left _ h2))
        have hxoldq : x ∉ (cur :: q1') ++ q2 := by
          intro hmem
          rw [List.cons_append, List.mem_cons] at hmem
          rcases hmem with h2 | h2
          · exact hxc h2
          · exact hxnq h2
        intro y hy hyo
        exact List.mem_append_right _ (inv.done_closed x h1 hxoldq y hy hyo)
  · -- done_no_edge
    intro x hx hnq
    rcases (hmemV' x).mp hx with h1 | h1
    · exact absurd (List.mem_append_right _ (List.mem_append_right _ h1)) hnq
    · by_cases hxc : x = cur
      · subst hxc
        exact hcur_ne
      · have hxnq : x ∉ q1' ++ q2 := by
          intro hmem
          rcases List.mem_append.mp hmem with h2 | h2
          · exact hnq (List.mem_append_left _ h2)
          · exact hnq (List.mem_append_right _ (List.mem_append_left _ h2))
        have hxoldq : x ∉ (cur :: q1') ++ q2 := by
          intro hmem
          rw [List.cons_append, List.mem_cons] at hmem
          rcases hmem with h2 | h2
          · exact hxc h2
          · exact hxnq h2
        exact inv.done_no_edge x h1 hxoldq
  · -- reach_vis
    intro n z hn hz
    exact List.mem_append_right _ (inv.reach_vis n z hn hz)
  · -- dist_min
    intro x hx n hreach
    by_cases hxv : x ∈ visited
    · rw [hDold x hxv]
      exact inv.dist_min x hxv n hreach
    · have hxn : x ∈ new := by
        rcases (hmemV' x).mp hx with h1 | h1
        · exact h1
        · exact absurd h1 hxv
      rw [if_pos hxn]
      by_contra hlt
      push_neg at hlt
      exact hxv (inv.reach_vis n x (by omega) hreach)

/-! ### The BFS loop is sound, complete and minimal -/

theorem bfsLoop_pop (g : GameLogic) (hedge0 : g.is_edge g.frog = false) (f : Nat)
    (ih : ∀ (d : Nat) (q1 q2 visited : List Cell) (parent : List (Cell × Cell))
      (D : Cell → Nat), BfsInv g D d q1 q2 visited parent →
      unvisitedCount g visited + (q1 ++ q2).length < f →
      BfsConc g (bfsLoop g f (q1 ++ q2) visited parent))
    (d : Nat) (cur : Cell) (q1' q2 visited : List Cell)
    (parent : List (Cell × Cell)) (D : Cell → Nat)
    (inv : BfsInv g D d (cur :: q1') q2 visited parent)
    (hm : unvisitedCount g visited + ((cur :: q1') ++ q2).length < f + 1) :
    BfsConc g (bfsLoop g (f + 1) (cur :: (q1' ++ q2)) visited parent) := by
  have hred : bfsLoop g (f + 1) (cur :: (q1' ++ q2)) visited parent =
      (if g.is_edge cur = true then
        reconstruct parent g.frog (parent.length + 1) [cur]
      else
        bfsLoop g f
          (pushNeighbors g cur (g.neighbors cur) (q1' ++ q2) visited parent).1
          (pushNeighbors g cur (g.neighbors cur) (q1' ++ q2) visited parent).2.1
          (pushNeighbors g cur (g.neighbors cur) (q1' ++ q2) visited parent).2.2) := rfl
  rw [hred]
  by_cases hecur : g.is_edge cur = true
  · rw [if_pos hecur]
    have hcurV : cur ∈ visited :=
      inv.queue_sub cur (List.mem_append_left _ (List.mem_cons_self _ _))
    have hDcur : D cur = d := inv.layer1 cur (List.mem_cons_self _ _)
    have hdle : d ≤ parent.length := hDcur ▸ inv.dist_le cur hcurV
    obtain ⟨pre, heq, hlen, hhead, hchain, hmem⟩ :=
      reconstruct_spec g D visited parent inv.dist_start inv.parent_spec d cur
        hcurV hDcur (parent.length + 1) (by omega) []
    rw [heq]
    constructor
    · intro _
      refine ⟨hhead, ⟨cur, List.getLast?_concat pre, hecur⟩, hchain, ?_⟩
      intro x hx
      exact ⟨inv.visited_obs x (hmem x hx), inv.visited_in x (hmem x hx)⟩
    · intro p hp
      obtain ⟨n, e, h1, h2, h3⟩ := valid_to_reach g hedge0 p hp
      have hdn : d ≤ n := frontier_bound g D d cur q1' q2 visited parent inv n e h1 h2
      have hrl : (pre ++ [cur]).length = d + 1 := by
        simp [hlen]
      constructor
      · intro hctr
        rw [hctr] at hrl
        simp at hrl
      · omega
  · rw [if_neg hecur]
    have hecur' : g.is_edge cur = false := by
      cases hb : g.is_edge cur
      · rfl
      · exact absurd hb hecur
    obtain ⟨new, heq, hnd, hprops, hcomp⟩ :=
      pushNeighbors_spec g cur (g.neighbors cur) (q1' ++ q2) visited parent
    have h1 : (pushNeighbors g cur (g.neighbors cur) (q1' ++ q2) visited parent).1 =
        (q1' ++ q2) ++ new := by rw [heq]
    have h2 : (pushNeighbors g cur (g.neighbors cur) (q1' ++ q2) visited parent).2.1 =
        new.reverse ++ visited := by rw [heq]
    have h3 : (pushNeighbors g cur (g.neighbors cur) (q1' ++ q2) visited parent).2.2 =
        new.reverse.map (fun nb => (nb, cur)) ++ parent := by rw [heq]
    rw [h1, h2, h3]
    have inv' := BfsInv_push g D d cur q1' q2 visited parent inv hecur' new hnd hprops hcomp
    have hinb : ∀ x ∈ new, g.in_bounds x = true :=
      fun x hx => mem_neighbors_in_bounds g (hprops x hx).1
    have hdisj : ∀ x ∈ new, x ∉ visited := fun x hx => (hprops x hx).2.1
    have hcount := unvisitedCount_append_new g new visited hnd hinb hdisj
    have hmm : unvisitedCount g (new.reverse ++ visited) +
        (q1' ++ (q2 ++ new)).length < f := by
      have hL : (q1' ++ (q2 ++ new)).length = (q1' ++ q2).length + new.length := by
        simp only [List.length_append]
        omega
      have hold : ((cur :: q1') ++ q2).length = (q1' ++ q2).length + 1 := by
        simp
      omega
    have hres := ih d q1' (q2 ++ new) (new.reverse ++ visited)
      (new.reverse.map (fun nb => (nb, cur)) ++ parent) _ inv' hmm
    rw [← List.append_assoc] at hres
    exact hres

theorem bfsLoop_sound (g : GameLogic) (hedge0 : g.is_edge g.frog = false) :
    ∀ (fuel : Nat) (d : Nat) (q1 q2 visited : List Cell)
      (parent : List (Cell × Cell)) (D : Cell → Nat),
      BfsInv g D d q1 q2 visited parent →
      unvisitedCount g visited + (q1 ++ q2).length < fuel →
      BfsConc g (bfsLoop g fuel (q1 ++ q2) visited parent) := by
  intro fuel
  induction fuel with
  | zero =>
    intro d q1 q2 visited parent D _ hm
    exact absurd hm (Nat.not_lt_zero _)
  | succ f ihf =>
    intro d q1 q2 visited parent D inv hm
    cases q1 with
    | nil =>
      cases q2 with
      | nil =>
        constructor
        · intro hne
          exact absurd rfl hne
        · intro p hp
          exfalso
          obtain ⟨n, e, h1, h2, h3⟩ := valid_to_reach g hedge0 p hp
          have hev := reach_all_visited g D d visited parent inv n e h1
          have hne := inv.done_no_edge e hev (by simp)
          rw [h2] at hne
          cases hne
      | cons cur q2' =>
        have inv' := BfsInv_shift g D d (cur :: q2') visited parent inv
        have hm' : unvisitedCount g visited + ((cur :: q2') ++ ([] : List Cell)).length
            < f + 1 := by
          simp only [List.append_nil]
          simpa using hm
        have hpop := bfsLoop_pop g hedge0 f ihf (d + 1) cur q2' [] visited parent D
          inv' hm'
        rw [List.append_nil] at hpop
        exact hpop
    | cons cur q1' =>
      exact bfsLoop_pop g hedge0 f ihf d cur q1' q2 visited parent D inv hm

/-! ### Soundness of `shortest_path_to_edge` -/

theorem spte_initial_inv (g : GameLogic) (hin : g.in_bounds g.frog = true)
    (hobs : g.frog ∉ g.obstacles) :
    BfsInv g (fun _ => 0) 0 [g.frog] [] [g.frog] [] := by
  refine
    { start_mem := List.mem_singleton_self _
      nodup_visited := List.nodup_singleton _
      nodup_queue := by simp
      queue_sub := by
        intro x hx
        simpa using hx
      visited_in := by
        intro x hx
        rw [List.mem_singleton] at hx
        exact hx ▸ hin
      visited_obs := by
        intro x hx
        rw [List.mem_singleton] at hx
        exact hx ▸ hobs
      dist_start := rfl
      layer1 := fun x _ => rfl
      layer2 := fun x hx => absurd hx (List.not_mem_nil x)
      parent_spec := by
        intro x hx hxf
        rw [List.mem_singleton] at hx
        exact absurd hx hxf
      parent_dom := fun ab hab => absurd hab (List.not_mem_nil ab)
      dist_le := fun x _ => Nat.le_refl 0
      done_closed := by
        intro x hx hnq
        exfalso
        apply hnq
        simpa using hx
      done_no_edge := by
        intro x hx hnq
        exfalso
        apply hnq
        simpa using hx
      reach_vis := ?_
      dist_min := fun x _ n _ => Nat.zero_le n }
  intro n z hn hz
  have hn0 : n = 0 := by omega
  subst hn0
  exact hz ▸ List.mem_singleton_self _

theorem spte_conc (g : GameLogic) (hin : g.in_bounds g.frog = true)
    (hobs : g.frog ∉ g.obstacles) :
    BfsConc g (shortest_path_to_edge g) := by
  by_cases hedge : g.is_edge g.frog = true
  · rw [spte_edge_start g hedge]
    constructor
    · intro _
      refine ⟨rfl, ⟨g.frog, rfl, hedge⟩, List.chain'_singleton _, ?_⟩
      intro x hx
      rw [List.mem_singleton] at hx
      exact hx ▸ ⟨hobs, hin⟩
    · intro p hp
      obtain ⟨hhead, _, _, _⟩ := hp
      refine ⟨by simp, ?_⟩
      cases p with
      | nil => cases hhead
      | cons a rest => simp
  · have hedge0 : g.is_edge g.frog = false := by
      cases hb : g.is_edge g.frog
      · rfl
      · exact absurd hb hedge
    have hspte : shortest_path_to_edge g =
        bfsLoop g (g.rows.toNat * g.cols.toNat + 1) [g.frog] [g.frog] [] := by
      unfold GameLogic.shortest_path_to_edge
      rw [if_neg (by rw [hedge0]; simp)]
    rw [hspte]
    have hm : unvisitedCount g [g.frog] + ([g.frog] ++ ([] : List Cell)).length <
        g.rows.toNat * g.cols.toNat + 1 := by
      have h1 := unvisitedCount_lt_allCells g g.frog [g.frog] hin
        (List.mem_singleton_self _)
      have h2 := length_allCells g
      simp only [List.append_nil, List.length_singleton]
      omega
    have := bfsLoop_sound g hedge0 (g.rows.toNat * g.cols.toNat + 1) 0
      [g.frog] [] [g.frog] [] (fun _ => 0) (spte_initial_inv g hin hobs) hm
    simpa using this

/-! ### Invariant preservation by one engine step -/

theorem step_Inv (g : GameLogic) (r c : Int) (h : Inv g) :
    Inv (step_after_click g r c).2 := by
  have hInv1 : Inv (add_obstacle g r c).2 := add_obstacle_Inv g r c h
  by_cases hst : g.status = Status.in_progress
  · obtain ⟨hin1, hobs1, hobsin1⟩ := hInv1
    cases hpath : shortest_path_to_edge (add_obstacle g r c).2 with
    | nil =>
      rw [step_win g r c hst hpath]
      exact ⟨hin1, hobs1, hobsin1⟩
    | cons a rest =>
      cases rest with
      | nil =>
        rw [step_single g r c hst hpath]
        show Inv (if _ = true then _ else _)
        split
        · exact ⟨hin1, hobs1, hobsin1⟩
        · exact ⟨hin1, hobs1, hobsin1⟩
      | cons b rest' =>
        obtain ⟨hgood, _⟩ := spte_conc (add_obstacle g r c).2 hin1 hobs1
        obtain ⟨hhead, _, hchain, hcells⟩ := hgood (by rw [hpath]; simp)
        rw [hpath] at hhead hchain hcells
        have hab : a = (add_obstacle g r c).2.frog := by simpa using hhead
        have hadj : b ∈ (add_obstacle g r c).2.neighbors
            ((add_obstacle g r c).2.frog) := by
          have h1 := (List.chain'_cons.mp hchain).1
          rwa [hab] at h1
        rw [step_move g r c hst hpath hadj]
        have hbprops := hcells b (List.mem_cons_of_mem _ (List.mem_cons_self _ _))
        show Inv (if _ = true then _ else _)
        split
        · exact ⟨hbprops.2, hbprops.1, hobsin1⟩
        · exact ⟨hbprops.2, hbprops.1, hobsin1⟩
  · rw [step_frozen g r c hst]
    exact hInv1

theorem stepMany_Inv (g : GameLogic) (clicks : List (Int × Int)) (h : Inv g) :
    Inv (stepMany g clicks) := by
  induction clicks generalizing g with
  | nil => exact h
  | cons rc rest ih =>
    obtain ⟨r, c⟩ := rc
    exact ih _ (step_Inv g r c h)

theorem init_Inv (rows cols mi ma n : Int) (samples : List Cell)
    (hr : 1 ≤ rows) (hc : 1 ≤ cols)
    (hs : ∀ x ∈ samples, 0 ≤ x.1 ∧ x.1 < rows ∧ 0 ≤ x.2 ∧ x.2 < cols) :
    Inv (init rows cols mi ma n samples) := by
  refine spawn_state_Inv _ n samples ?_ ?_
  · rw [in_bounds_iff]
    refine ⟨?_, ?_, ?_, ?_⟩
    · show (0 : Int) ≤ rows / 2
      omega
    · show rows / 2 < rows
      omega
    · show (0 : Int) ≤ cols / 2
      omega
    · show cols / 2 < cols
      omega
  · intro x hx
    rw [in_bounds_iff]
    exact hs x hx

theorem reset_Inv (g : GameLogic) (n : Int) (samples : List Cell)
    (hr : 1 ≤ g.rows) (hc : 1 ≤ g.cols)
    (hs : ∀ x ∈ samples, 0 ≤ x.1 ∧ x.1 < g.rows ∧ 0 ≤ x.2 ∧ x.2 < g.cols) :
    Inv (GameLogic.reset g n samples) := by
  refine spawn_state_Inv _ n samples ?_ ?_
  · rw [in_bounds_iff]
    refine ⟨?_, ?_, ?_, ?_⟩
    · show (0 : Int) ≤ g.rows / 2
      omega
    · show g.rows / 2 < g.rows
      omega
    · show (0 : Int) ≤ g.cols / 2
      omega
    · show g.cols / 2 < g.cols
      omega
  · intro x hx
    rw [in_bounds_iff]
    exact hs x hx

/-! ### Step bookkeeping for the lose-condition scenario -/

theorem step_added (g : GameLogic) (r c : Int) :
    (step_after_click g r c).1.added = (add_obstacle g r c).1 := by
  unfold GameLogic.step_after_click
  simp only []
  split
  · split
    · rfl
    · rfl
  · rfl

theorem iter99_cols (k : Nat) : (iter99 g9 k).cols = 11 := by
  induction k with
  | zero => rfl
  | succ k ih =>
    show (step_after_click (iter99 g9 k) 99 99).2.cols = 11
    rw [(step_dims _ 99 99).2.1, ih]

theorem add_oob_false (g : GameLogic) (h : g.cols ≤ 99) :
    (add_obstacle g 99 99).1 = false := by
  refine (add_obstacle_spec g 99 99).1.mpr (Or.inl ?_)
  cases hb : g.in_bounds (99, 99) with
  | false => rfl
  | true =>
    rw [in_bounds_iff] at hb
    exfalso
    have h5 : (99 : Int) < g.cols := hb.2.2.2
    omega

/-! ### Claims C1, C5, C7, C8, C10 -/

/-- Claim C1, counterexample: `gLose` is a state reached from construction by
one `step_after_click` call and has terminal status `lose`, yet a further
`step_after_click (0, 0)` call changes the obstacle set: `(0, 0)` was not an
obstacle before the call and is one after it. -/
theorem C1_counterexample :
    gLose.status = Status.lose ∧
    ((0 : Int), (0 : Int)) ∉ gLose.obstacles ∧
    ((0 : Int), (0 : Int)) ∈ (step_after_click gLose 0 0).2.obstacles := by
  decide

/-- Claim C1 (amended): once the status is `win` or `lose`,
`step_after_click(r, c)` leaves the frog position and the status unchanged and
returns the frozen state with an empty path, but the initial `add_obstacle`
attempt still runs, so the obstacle set may additionally gain the cell
`(r, c)`; the post-state is exactly the state after that `add_obstacle`
attempt. -/
theorem C1_terminal_freeze_amended (g : GameLogic) (r c : Int)
    (h : g.status ≠ Status.in_progress) :
    (step_after_click g r c).2.frog = g.frog ∧
    (step_after_click g r c).2.status = g.status ∧
    (step_after_click g r c).1.added = (add_obstacle g r c).1 ∧
    (step_after_click g r c).1.path = [] ∧
    (step_after_click g r c).1.moved_to = g.frog ∧
    (step_after_click g r c).1.status = g.status ∧
    (step_after_click g r c).2 = (add_obstacle g r c).2 := by
  rw [step_frozen g r c h]
  exact ⟨(add_obstacle_fields g r c).2.2.1, (add_obstacle_fields g r c).2.2.2.1,
    rfl, rfl, rfl, rfl, rfl⟩

/-- Witness for C1: the amended freeze theorem applied to the concrete
terminal state `gLose`. -/
theorem C1_witness :
    gLose.status ≠ Status.in_progress ∧
    (step_after_click gLose 0 0).2.frog = gLose.frog ∧
    (step_after_click gLose 0 0).2.status = gLose.status ∧
    (step_after_click gLose 0 0).1.path = [] :=
  ⟨by decide, (C1_terminal_freeze_amended gLose 0 0 (by decide)).1,
    (C1_terminal_freeze_amended gLose 0 0 (by decide)).2.1,
    (C1_terminal_freeze_amended gLose 0 0 (by decide)).2.2.2.1⟩

/-- Claim C5, counterexample: for the sampling outcome in which `n = 1` is
drawn from `[min_obstacles, max_obstacles] = [1, 1]` and all 110 allowed
attempts sample the frog's own cell, construction of a 3×3 game ends with an
empty obstacle set, so the size `0` is below `min_obstacles = 1` even though
the grid is large enough (`min_obstacles ≤ rows*cols - 1 = 8`). -/
theorem C5_counterexample :
    gSpawn.obstacles.length = 0 ∧
    ¬ ((gSpawn.min_obstacles ≤ (gSpawn.obstacles.length : Int) ∧
        (gSpawn.obstacles.length : Int) ≤ gSpawn.max_obstacles) ∨
       gSpawn.min_obstacles > gSpawn.rows * gSpawn.cols - 1) := by
  decide

/-- Claim C5 (amended): immediately after construction or after any `reset()`
call, for every outcome of the random sampling, the obstacle set size is at
most `max_obstacles` (it never exceeds the sampled target `n ≤ max_obstacles`);
it can, however, fall short of `min_obstacles` whenever the bounded attempt
budget is exhausted by colliding samples, even on a large grid. -/
theorem C5_obstacle_count_amended (rows cols mi ma n : Int) (samples : List Cell)
    (h0 : 0 ≤ n) (hn : n ≤ ma) :
    ((init rows cols mi ma n samples).obstacles.length : Int) ≤ ma ∧
    ∀ g : GameLogic, ((reset g n samples).obstacles.length : Int) ≤ ma := by
  constructor
  · have h := spawnLoop_length_le ((rows / 2 : Int), (cols / 2 : Int)) n (n * 10 + 100)
      samples [] 0 (by simpa using h0)
    exact le_trans h hn
  · intro g
    have h := spawnLoop_length_le ((g.rows / 2 : Int), (g.cols / 2 : Int)) n (n * 10 + 100)
      samples [] 0 (by simpa using h0)
    exact le_trans h hn

/-- Witness for C5: the amended bound applied at a concrete instantiation. -/
theorem C5_witness :
    (0 : Int) ≤ 1 ∧ (1 : Int) ≤ 1 ∧
    ((init 3 3 1 1 1 [((0 : Int), (0 : Int))]).obstacles.length : Int) ≤ 1 :=
  ⟨by decide, by decide,
    (C5_obstacle_count_amended 3 3 1 1 1 [((0 : Int), (0 : Int))] (by decide) (by decide)).1⟩

/-- Claim C7: in an `in_progress` state, if after the obstacle-placement
attempt `shortest_path_to_edge` returns the empty list, then
`step_after_click` sets the status to `win`, reports an empty path, and
leaves the frog unchanged. -/
theorem C7_win_on_empty_path (g : GameLogic) (r c : Int)
    (h : g.status = Status.in_progress)
    (hp : shortest_path_to_edge (add_obstacle g r c).2 = []) :
    (step_after_click g r c).1.status = Status.win ∧
    (step_after_click g r c).1.path = [] ∧
    (step_after_click g r c).1.moved_to = g.frog ∧
    (step_after_click g r c).2.status = Status.win ∧
    (step_after_click g r c).2.frog = g.frog := by
  rw [step_win g r c h hp]
  exact ⟨rfl, rfl, rfl, rfl, (add_obstacle_fields g r c).2.2.1⟩

/-- Witness for C7: the walled-in 3×3 state `gTrap`, stepped with an
out-of-bounds click. -/
theorem C7_witness :
    gTrap.status = Status.in_progress ∧
    shortest_path_to_edge (add_obstacle gTrap 99 99).2 = [] ∧
    (step_after_click gTrap 99 99).1.status = Status.win ∧
    (step_after_click gTrap 99 99).2.frog = gTrap.frog :=
  ⟨by decide, by decide,
    (C7_win_on_empty_path gTrap 99 99 (by decide) (by decide)).1,
    (C7_win_on_empty_path gTrap 99 99 (by decide) (by decide)).2.2.2.2⟩

/-- Claim C8: `add_obstacle(r, c)` returns `False` and leaves the state
unchanged exactly when `(r, c)` is out of bounds, equals the frog cell, or is
already an obstacle; otherwise it returns `True` and the only change is the
insertion of `(r, c)` into the obstacle set. -/
theorem C8_add_obstacle_contract (g : GameLogic) (r c : Int) :
    ((add_obstacle g r c).1 = false ↔
      (g.in_bounds (r, c) = false ∨ (r, c) = g.frog ∨ (r, c) ∈ g.obstacles)) ∧
    ((add_obstacle g r c).1 = false → (add_obstacle g r c).2 = g) ∧
    ((add_obstacle g r c).1 = true →
      (add_obstacle g r c).2 = { g with obstacles := (r, c) :: g.obstacles }) :=
  add_obstacle_spec g r c

/-- Witness for C8: both outcomes of the contract at concrete inputs on the
state `gW`. -/
theorem C8_witness :
    (add_obstacle gW 0 0).1 = true ∧
    (add_obstacle gW 0 0).2 = { gW with obstacles := ((0 : Int), (0 : Int)) :: gW.obstacles } ∧
    (add_obstacle gW 99 99).1 = false ∧
    (add_obstacle gW 99 99).2 = gW :=
  ⟨by decide, (C8_add_obstacle_contract gW 0 0).2.2 (by decide),
    by decide, (C8_add_obstacle_contract gW 99 99).2.1 (by decide)⟩

/-- Claim C10: if an `in_progress` state has its frog already on an edge cell,
`step_after_click` returns the single-element path `[frog]`, does not move the
frog, and sets the status to `lose`; consequently, on any grid with
`rows ≤ 2` or `cols ≤ 2` (and positive dimensions) the starting centre cell is
an edge cell, so the very first step after construction ends the game with
`lose`. -/
theorem C10_edge_start_loss :
    (∀ (g : GameLogic) (r c : Int), g.status = Status.in_progress →
        g.is_edge g.frog = true →
        (step_after_click g r c).1.path = [g.frog] ∧
        (step_after_click g r c).1.moved_to = g.frog ∧
        (step_after_click g r c).2.frog = g.frog ∧
        (step_after_click g r c).1.status = Status.lose ∧
        (step_after_click g r c).2.status = Status.lose) ∧
    (∀ (rows cols mi ma n r c : Int) (samples : List Cell),
        1 ≤ rows → 1 ≤ cols → (rows ≤ 2 ∨ cols ≤ 2) →
        (step_after_click (init rows cols mi ma n samples) r c).2.status =
          Status.lose) := by
  have main : ∀ (g : GameLogic) (r c : Int), g.status = Status.in_progress →
      g.is_edge g.frog = true →
      (step_after_click g r c).1.path = [g.frog] ∧
      (step_after_click g r c).1.moved_to = g.frog ∧
      (step_after_click g r c).2.frog = g.frog ∧
      (step_after_click g r c).1.status = Status.lose ∧
      (step_after_click g r c).2.status = Status.lose := by
    intro g r c hst hedge
    have hfr := (add_obstacle_fields g r c).2.2.1
    have hr := (add_obstacle_fields g r c).1
    have hc := (add_obstacle_fields g r c).2.1
    have hedge1 : (add_obstacle g r c).2.is_edge ((add_obstacle g r c).2.frog) = true := by
      rw [is_edge_congr g _ hr hc, hfr]
      exact hedge
    have hp : shortest_path_to_edge (add_obstacle g r c).2 =
        [(add_obstacle g r c).2.frog] := spte_edge_start _ hedge1
    have hedge1' : (add_obstacle g r c).2.is_edge g.frog = true := by
      rw [is_edge_congr g _ hr hc]
      exact hedge
    rw [step_single g r c hst hp]
    simp [hedge1', hfr]
  refine ⟨main, ?_⟩
  intro rows cols mi ma n r c samples hr hc hsmall
  have h1 := (init_fields rows cols mi ma n samples).1
  have h2 := (init_fields rows cols mi ma n samples).2.1
  have h3 := (init_fields rows cols mi ma n samples).2.2.1
  have h4 := (init_fields rows cols mi ma n samples).2.2.2.1
  have hedge : (init rows cols mi ma n samples).is_edge
      ((init rows cols mi ma n samples).frog) = true := by
    rw [is_edge_iff, h1, h2, h3]
    rcases hsmall with hs | hs
    · have : rows / 2 = 0 ∨ rows / 2 = rows - 1 := by omega
      rcases this with h | h
      · exact Or.inl h
      · exact Or.inr (Or.inl h)
    · have : cols / 2 = 0 ∨ cols / 2 = cols - 1 := by omega
      rcases this with h | h
      · exact Or.inr (Or.inr (Or.inl h))
      · exact Or.inr (Or.inr (Or.inr h))
  exact (main (init rows cols mi ma n samples) r c h4 hedge).2.2.2.2

/-- Witness for C10: the concrete 1×2 game loses on the very first step, with
the single-element path reported. -/
theorem C10_witness :
    (init 1 2 0 0 0 []).status = Status.in_progress ∧
    GameLogic.is_edge (init 1 2 0 0 0 []) (init 1 2 0 0 0 []).frog = true ∧
    (step_after_click (init 1 2 0 0 0 []) 99 99).1.path = [(init 1 2 0 0 0 []).frog] ∧
    (step_after_click (init 1 2 0 0 0 []) 99 99).2.status = Status.lose :=
  ⟨by decide, by decide,
    ((C10_edge_start_loss).1 (init 1 2 0 0 0 []) 99 99 (by decide) (by decide)).1,
    ((C10_edge_start_loss).1 (init 1 2 0 0 0 []) 99 99 (by decide) (by decide)).2.2.2.2⟩

/-! ### Claims C2, C3, C4, C6, C9 -/

/-- Claim C2: whenever the frog cell is in bounds and not an obstacle, a
nonempty result of `shortest_path_to_edge` starts at the frog's cell, ends at
an edge cell, has hex-adjacent consecutive cells, and contains no obstacle
cell. -/
theorem C2_path_validity (g : GameLogic) (hin : g.in_bounds g.frog = true)
    (hobs : g.frog ∉ g.obstacles) (hne : shortest_path_to_edge g ≠ []) :
    ValidPath g (shortest_path_to_edge g) := by
  obtain ⟨hgood, _⟩ := spte_conc g hin hobs
  obtain ⟨hhead, hlast, hchain, hcells⟩ := hgood hne
  exact ⟨hhead, hlast, hchain, fun x hx => (hcells x hx).1⟩

/-- Witness for C2: the 3×3 state `gW` with the frog centred. -/
theorem C2_witness :
    gW.in_bounds gW.frog = true ∧ gW.frog ∉ gW.obstacles ∧
    shortest_path_to_edge gW ≠ [] ∧ ValidPath gW (shortest_path_to_edge gW) :=
  ⟨by decide, by decide, by decide,
    C2_path_validity gW (by decide) (by decide) (by decide)⟩

/-- Claim C3: whenever the frog cell is in bounds and not an obstacle, the
result of `shortest_path_to_edge` is at most as long as every obstacle-free
hex-adjacent path from the frog to an edge cell (and is nonempty whenever one
exists); if it is empty, no such path exists. -/
theorem C3_minimality (g : GameLogic) (hin : g.in_bounds g.frog = true)
    (hobs : g.frog ∉ g.obstacles) :
    (∀ p, ValidPath g p →
      shortest_path_to_edge g ≠ [] ∧
      (shortest_path_to_edge g).length ≤ p.length) ∧
    (shortest_path_to_edge g = [] → ∀ p, ¬ ValidPath g p) := by
  obtain ⟨_, hmin⟩ := spte_conc g hin hobs
  refine ⟨hmin, ?_⟩
  intro hempty p hp
  exact (hmin p hp).1 hempty

/-- Witness for C3: on `gW`, the valid two-cell path `[(1,1), (0,1)]` bounds
the BFS result length. -/
theorem C3_witness :
    shortest_path_to_edge gW ≠ [] ∧
    (shortest_path_to_edge gW).length ≤
      [((1 : Int), (1 : Int)), ((0 : Int), (1 : Int))].length := by
  have hvp : ValidPath gW [((1 : Int), (1 : Int)), ((0 : Int), (1 : Int))] := by
    refine ⟨rfl, ⟨((0 : Int), (1 : Int)), rfl, by decide⟩, ?_, by decide⟩
    exact List.chain'_cons.mpr ⟨by decide, List.chain'_singleton _⟩
  exact (C3_minimality gW (by decide) (by decide)).1 _ hvp

/-- Claim C4: every state reachable from construction or from `reset` by any
sequence of `step_after_click` calls keeps the frog in bounds, keeps the frog
off the obstacle set, and keeps every obstacle in bounds. -/
theorem C4_invariant_preservation :
    (∀ (rows cols mi ma n : Int) (samples : List Cell)
        (clicks : List (Int × Int)),
      1 ≤ rows → 1 ≤ cols →
      (∀ x ∈ samples, 0 ≤ x.1 ∧ x.1 < rows ∧ 0 ≤ x.2 ∧ x.2 < cols) →
      Inv (stepMany (init rows cols mi ma n samples) clicks)) ∧
    (∀ (g : GameLogic) (n : Int) (samples : List Cell)
        (clicks : List (Int × Int)),
      1 ≤ g.rows → 1 ≤ g.cols →
      (∀ x ∈ samples, 0 ≤ x.1 ∧ x.1 < g.rows ∧ 0 ≤ x.2 ∧ x.2 < g.cols) →
      Inv (stepMany (GameLogic.reset g n samples) clicks)) :=
  ⟨fun rows cols mi ma n samples clicks hr hc hs =>
      stepMany_Inv _ clicks (init_Inv rows cols mi ma n samples hr hc hs),
    fun g n samples clicks hr hc hs =>
      stepMany_Inv _ clicks (reset_Inv g n samples hr hc hs)⟩

/-- Witness for C4: a concrete 3×3 game stepped twice. -/
theorem C4_witness :
    Inv (stepMany (init 3 3 0 0 0 [])
      [((0 : Int), (0 : Int)), ((99 : Int), (99 : Int))]) :=
  (C4_invariant_preservation).1 3 3 0 0 0 [] _ (by decide) (by decide)
    (fun x hx => absurd hx (List.not_mem_nil x))

/-- Claim C6: in an `in_progress` state satisfying the frog/obstacle
invariants, if the path computed inside `step_after_click` (that is,
`shortest_path_to_edge` of the post-`add_obstacle` state) has at least two
cells, then its second cell is one of the hex neighbors of the frog — so the
defensive fallback scan is never needed — and the frog's new position after
the step is exactly that second cell. -/
theorem C6_greedy_hop (g : GameLogic) (r c : Int) (hInv : Inv g)
    (hst : g.status = Status.in_progress)
    (hlen : 2 ≤ (shortest_path_to_edge (add_obstacle g r c).2).length) :
    ∃ nc, (shortest_path_to_edge (add_obstacle g r c).2)[1]? = some nc ∧
      nc ∈ (add_obstacle g r c).2.neighbors ((add_obstacle g r c).2.frog) ∧
      (step_after_click g r c).2.frog = nc := by
  obtain ⟨hin1, hobs1, _⟩ := add_obstacle_Inv g r c hInv
  have hne : shortest_path_to_edge (add_obstacle g r c).2 ≠ [] := by
    intro hctr
    rw [hctr] at hlen
    simp at hlen
  obtain ⟨hgood, _⟩ := spte_conc (add_obstacle g r c).2 hin1 hobs1
  obtain ⟨hhead, _, hchain, _⟩ := hgood hne
  cases hpath : shortest_path_to_edge (add_obstacle g r c).2 with
  | nil => exact absurd hpath hne
  | cons a rest =>
    cases rest with
    | nil =>
      rw [hpath] at hlen
      simp at hlen
    | cons b rest' =>
      rw [hpath] at hhead hchain
      have hab : a = (add_obstacle g r c).2.frog := by simpa using hhead
      have hadj : b ∈ (add_obstacle g r c).2.neighbors
          ((add_obstacle g r c).2.frog) := by
        have h1 := (List.chain'_cons.mp hchain).1
        rwa [hab] at h1
      refine ⟨b, by simp, hadj, ?_⟩
      rw [step_move g r c hst hpath hadj]
      show (if (add_obstacle g r c).2.is_edge b = true then
          ({ (add_obstacle g r c).2 with frog := b, status := Status.lose } : GameLogic)
        else { (add_obstacle g r c).2 with frog := b }).frog = b
      split
      · rfl
      · rfl

/-- Witness for C6: `gW` with an out-of-bounds click; the path is
`[(1,1), (0,1)]` and the frog hops to `(0,1)`. -/
theorem C6_witness :
    Inv gW ∧ gW.status = Status.in_progress ∧
    2 ≤ (shortest_path_to_edge (add_obstacle gW 99 99).2).length ∧
    ∃ nc, (shortest_path_to_edge (add_obstacle gW 99 99).2)[1]? = some nc ∧
      nc ∈ (add_obstacle gW 99 99).2.neighbors ((add_obstacle gW 99 99).2.frog) ∧
      (step_after_click gW 99 99).2.frog = nc :=
  ⟨⟨by decide, by decide, by decide⟩, by decide, by decide,
    C6_greedy_hop gW 99 99 ⟨by decide, by decide, by decide⟩ (by decide) (by decide)⟩

set_option maxRecDepth 100000 in
/-- Claim C9: from the 11×11 state with the frog at `(5, 5)`, an empty
obstacle set and status `in_progress`, every `step_after_click(99, 99)` call
reports `added = false`, and within at most `rows*cols = 121` such calls
(concretely, after 5) the frog stands on an edge cell with status `lose`. -/
theorem C9_lose_scenario :
    g9.rows = 11 ∧ g9.cols = 11 ∧ g9.frog = (5, 5) ∧ g9.obstacles = [] ∧
    g9.status = Status.in_progress ∧
    (∀ j : Nat, (step_after_click (iter99 g9 j) 99 99).1.added = false) ∧
    ∃ k, k ≤ 11 * 11 ∧ (iter99 g9 k).status = Status.lose ∧
      (iter99 g9 k).is_edge ((iter99 g9 k).frog) = true := by
  refine ⟨rfl, rfl, by decide, by decide, by decide, ?_, ?_⟩
  · intro j
    rw [step_added]
    refine add_oob_false _ ?_
    rw [iter99_cols]
    omega
  · exact ⟨5, by omega, by decide, by decide⟩

end CatchAFrog
